import Mathlib

/-!
Shallow embedding of the geometry-batching core of the immediate-mode
repository.

Scalar model: the source computes with 32-bit floats; here the scalar type is
an arbitrary linear ordered field equipped with an arbitrary square-root
function, so every algebraic step of the source is mirrored one-for-one while
staying exact.  Index arithmetic mirrors the source's u32 casts and additions
with an explicit modulus 2 ^ 32.

Source files embedded: src/math.rs (Vec2), src/color.rs (Color to RGBA
bytes), src/draw.rs (DrawData and its primitive generators), and the second
DrawData implementation living in src/lib.rs (namespace Lib below).
-/

set_option linter.unusedSectionVars false

namespace ImmediateMode

variable {α : Type} [LinearOrderedField α]

/-- 2D math vector, from src/math.rs: two scalar components x and y. -/
structure Vec2 (α : Type) where
  x : α
  y : α
deriving DecidableEq

/-- A zero vector, from Vec2::zero in src/math.rs. -/
def Vec2.zero : Vec2 α := ⟨0, 0⟩

instance : Inhabited (Vec2 α) := ⟨Vec2.zero⟩

/-- Componentwise vector addition, from the Add impl in src/math.rs. -/
def Vec2.add (a b : Vec2 α) : Vec2 α := ⟨a.x + b.x, a.y + b.y⟩

/-- Componentwise vector subtraction, from the Sub impl in src/math.rs. -/
def Vec2.sub (a b : Vec2 α) : Vec2 α := ⟨a.x - b.x, a.y - b.y⟩

/-- Scalar product, from the Mul by f32 impl in src/math.rs (map of * s). -/
def Vec2.smul (a : Vec2 α) (s : α) : Vec2 α := ⟨a.x * s, a.y * s⟩

/-- Dot product between two vectors, from Vec2::dot in src/math.rs. -/
def Vec2.dot (a b : Vec2 α) : α := a.x * b.x + a.y * b.y

/-- Normal (perpendicular) of a vector, from Vec2::normal in src/math.rs. -/
def Vec2.normal (a : Vec2 α) : Vec2 α := ⟨-a.y, a.x⟩

/-- Squared magnitude of a vector, from Vec2::len2 in src/math.rs. -/
def Vec2.len2 (a : Vec2 α) : α := a.x * a.x + a.y * a.y

/-- Magnitude of a vector, from Vec2::len in src/math.rs; the square-root
function of the scalar model is passed explicitly. -/
def Vec2.len (sqrt : α → α) (a : Vec2 α) : α := sqrt a.len2

/-- The minimum-length floor 0.000_000_01 used by Vec2::unit in
src/math.rs (the f32 literal denotes the nearest float to 10 ^ -8; the
exact value is irrelevant to every property below, only its positivity). -/
def minLen (α : Type) [LinearOrderedField α] : α := 1 / 100000000

/-- Vector scaled towards magnitude 1, from Vec2::unit in src/math.rs:
the vector times the reciprocal of max(len, minimum-length floor). -/
def Vec2.unit (sqrt : α → α) (a : Vec2 α) : Vec2 α :=
  a.smul (1 / max (a.len sqrt) (minLen α))

/-- Conversion of a 32-bit Color to RGBA bytes, from the Into u8-array impl
in src/color.rs. -/
def colorToBytes (c : Nat) : Nat × Nat × Nat × Nat :=
  ((Nat.land c 0xFF000000) >>> 24,
   (Nat.land c 0x00FF0000) >>> 16,
   (Nat.land c 0x0000FF00) >>> 8,
   Nat.land c 0x000000FF)

/-- Vertex data (position, uv, rgba), the Vert type of src/draw.rs.  The
generic Vertex parameter of the source is instantiated with the tuple
itself: the required From conversion is applied to identical tuples in every
claim, so equality at this level decides equality for every vertex type. -/
structure Vert (α : Type) where
  pos : Vec2 α
  uv : Vec2 α
  rgba : Nat × Nat × Nat × Nat
deriving DecidableEq

/-- Texture coordinate OPAQUE_UV of src/draw.rs, the pair of zeros. -/
def OPAQUE_UV (α : Type) [LinearOrderedField α] : Vec2 α := ⟨0, 0⟩

/-- Data needed to draw the UI, the DrawData struct of src/draw.rs:
a growable vertex sequence and a growable u32 index sequence. -/
structure DrawData (α : Type) where
  verts : List (Vert α)
  indicies : List Nat
deriving DecidableEq

/-- Modulus of the 32-bit unsigned index type. -/
def U32 : Nat := 2 ^ 32

/-- The six indices pushed by the quad_indicies macro of src/draw.rs for a
quad whose first vertex slot is the given number: two triangles
(f, f+1, f+2) and (f+1, f+2, f+3), with u32 wrap-around on each addition. -/
def quadIndicies (first : Nat) : List Nat :=
  [first % U32, (first + 1) % U32, (first + 2) % U32,
   (first + 1) % U32, (first + 2) % U32, (first + 3) % U32]

/-- DrawData::extend of src/draw.rs: append the vertex list verbatim and
append each input index shifted by the vertex count before the call
(read as a u32). -/
def DrawData.extend (d : DrawData α) (vs : List (Vert α)) (idxs : List Nat) :
    DrawData α :=
  let base_index := d.verts.length % U32
  { verts := d.verts ++ vs,
    indicies := d.indicies ++ idxs.map (fun i => (base_index + i) % U32) }

/-- DrawData::tri of src/draw.rs: triangle with uniform color. -/
def DrawData.tri (d : DrawData α) (color : Nat) (a b c : Vec2 α) :
    DrawData α :=
  let base_index := d.verts.length % U32
  let col := colorToBytes color
  { verts := d.verts ++
      [⟨a, OPAQUE_UV α, col⟩, ⟨b, OPAQUE_UV α, col⟩, ⟨c, OPAQUE_UV α, col⟩],
    indicies := d.indicies ++
      [base_index, (base_index + 1) % U32, (base_index + 2) % U32] }

/-- DrawData::tri_multicolor of src/draw.rs: triangle with per-vertex
colors; each argument pairs a position with its 32-bit color. -/
def DrawData.tri_multicolor (d : DrawData α) (a b c : Vec2 α × Nat) :
    DrawData α :=
  let base_index := d.verts.length % U32
  { verts := d.verts ++
      [⟨a.1, OPAQUE_UV α, colorToBytes a.2⟩,
       ⟨b.1, OPAQUE_UV α, colorToBytes b.2⟩,
       ⟨c.1, OPAQUE_UV α, colorToBytes c.2⟩],
    indicies := d.indicies ++
      [base_index, (base_index + 1) % U32, (base_index + 2) % U32] }

/-- DrawData::rect of src/draw.rs: four corner vertices built from the two
given corners and the quad index pattern. -/
def DrawData.rect (d : DrawData α) (color : Nat) (a b : Vec2 α) :
    DrawData α :=
  let col := colorToBytes color
  { verts := d.verts ++
      [⟨⟨a.x, a.y⟩, OPAQUE_UV α, col⟩, ⟨⟨a.x, b.y⟩, OPAQUE_UV α, col⟩,
       ⟨⟨b.x, a.y⟩, OPAQUE_UV α, col⟩, ⟨⟨b.x, b.y⟩, OPAQUE_UV α, col⟩],
    indicies := d.indicies ++ quadIndicies d.verts.length }

/-- DrawData::rect_uv of src/draw.rs: the rect corner pattern with the two
UV corners assigned bilinearly to the four position corners. -/
def DrawData.rect_uv (d : DrawData α) (color : Nat)
    (auv buv : Vec2 α × Vec2 α) : DrawData α :=
  let a := auv.1
  let uv_a := auv.2
  let b := buv.1
  let uv_b := buv.2
  let col := colorToBytes color
  { verts := d.verts ++
      [⟨⟨a.x, a.y⟩, ⟨uv_a.x, uv_a.y⟩, col⟩,
       ⟨⟨a.x, b.y⟩, ⟨uv_a.x, uv_b.y⟩, col⟩,
       ⟨⟨b.x, a.y⟩, ⟨uv_b.x, uv_a.y⟩, col⟩,
       ⟨⟨b.x, b.y⟩, ⟨uv_b.x, uv_b.y⟩, col⟩],
    indicies := d.indicies ++ quadIndicies d.verts.length }

/-- The vertices produced by the interior loop and the final block of
DrawData::polyline in src/draw.rs, as a recursion over the sliding window
(p0, p1, rest): while a successor p2 exists, p1 receives its two miter-line
vertices; the last point receives the two vertices perpendicular to its own
segment. -/
def polylineVertsAux (sqrt : α → α) (half : α) (col : Nat × Nat × Nat × Nat) :
    Vec2 α → Vec2 α → List (Vec2 α) → List (Vert α)
  | p0, p1, [] =>
      let dl := p1.sub p0
      let nl := (dl.normal.unit sqrt).smul half
      [⟨p1.sub nl, OPAQUE_UV α, col⟩, ⟨p1.add nl, OPAQUE_UV α, col⟩]
  | p0, p1, p2 :: rest =>
      let d_in := p1.sub p0
      let n01 := d_in.normal.unit sqrt
      let miter :=
        ((((p2.sub p1).unit sqrt).add ((p1.sub p0).unit sqrt)).unit sqrt).normal
      let length := half / miter.dot n01
      ⟨p1.sub (miter.smul length), OPAQUE_UV α, col⟩ ::
        ⟨p1.add (miter.smul length), OPAQUE_UV α, col⟩ ::
        polylineVertsAux sqrt half col p1 p2 rest

/-- The indices produced by the interior loop of DrawData::polyline in
src/draw.rs: one quad pattern per iteration, at a base that starts two past
the first point's pair and advances by two per interior point. -/
def polylineIdxsAux : Nat → Nat → List Nat
  | _, 0 => []
  | base, n + 1 => quadIndicies base ++ polylineIdxsAux (base + 2) n

/-- DrawData::polyline of src/draw.rs: nothing happens below two points;
otherwise two vertices per point (first and last perpendicular to their own
segment, interior points on the miter line) and one quad index pattern per
segment, the pattern for a point referencing that point's pair and the next
point's pair. -/
def DrawData.polyline (sqrt : α → α) (d : DrawData α) (color : Nat)
    (thickness : α) (points : List (Vec2 α)) : DrawData α :=
  match points with
  | p0 :: p1 :: rest =>
      let col := colorToBytes color
      let half := thickness * (1 / 2)
      let df := p0.sub p1
      let nf := (df.normal.unit sqrt).smul half
      { verts := d.verts ++
          (⟨p0.add nf, OPAQUE_UV α, col⟩ :: ⟨p0.sub nf, OPAQUE_UV α, col⟩ ::
            polylineVertsAux sqrt half col p0 p1 rest),
        indicies := d.indicies ++
          (quadIndicies d.verts.length ++
            polylineIdxsAux (d.verts.length + 2) rest.length) }
  | _ => d

/-- The vertices produced by the segment loop of DrawData::rect_polyline in
src/draw.rs: four rectangle corners per remaining segment. -/
def rectPolylineVertsAux (sqrt : α → α) (half : α)
    (col : Nat × Nat × Nat × Nat) : Vec2 α → List (Vec2 α) → List (Vert α)
  | _, [] => []
  | p1, p2 :: rest =>
      let d_in := p2.sub p1
      let n := d_in.normal.unit sqrt
      ⟨p1.sub (n.smul half), OPAQUE_UV α, col⟩ ::
        ⟨p1.add (n.smul half), OPAQUE_UV α, col⟩ ::
        ⟨p2.sub (n.smul half), OPAQUE_UV α, col⟩ ::
        ⟨p2.add (n.smul half), OPAQUE_UV α, col⟩ ::
        rectPolylineVertsAux sqrt half col p2 rest

/-- The indices produced by the segment loop of DrawData::rect_polyline in
src/draw.rs: one quad pattern per segment, base advancing by four. -/
def rectPolylineIdxsAux : Nat → Nat → List Nat
  | _, 0 => []
  | base, n + 1 => quadIndicies base ++ rectPolylineIdxsAux (base + 4) n

/-- DrawData::rect_polyline of src/draw.rs: nothing happens below two
points; otherwise one independent rectangle per segment, the first segment
laid out before the loop with its normal taken from points0 - points1. -/
def DrawData.rect_polyline (sqrt : α → α) (d : DrawData α) (color : Nat)
    (thickness : α) (points : List (Vec2 α)) : DrawData α :=
  match points with
  | p0 :: p1 :: rest =>
      let col := colorToBytes color
      let half := thickness * (1 / 2)
      let df := p0.sub p1
      let nf := (df.normal.unit sqrt).smul half
      { verts := d.verts ++
          (⟨p0.sub nf, OPAQUE_UV α, col⟩ :: ⟨p0.add nf, OPAQUE_UV α, col⟩ ::
            ⟨p1.sub nf, OPAQUE_UV α, col⟩ :: ⟨p1.add nf, OPAQUE_UV α, col⟩ ::
            rectPolylineVertsAux sqrt half col p1 rest),
        indicies := d.indicies ++
          (quadIndicies d.verts.length ++
            rectPolylineIdxsAux (d.verts.length + 4) rest.length) }
  | _ => d

namespace Lib

/-!
The second DrawData implementation, from src/lib.rs.  Its struct holds the
same two sequences, so it is modelled on the same DrawData state type; its
method bodies are translated independently from src/lib.rs (which writes the
texture coordinate of untextured vertices as the literal pair of zeros
rather than through the OPAQUE_UV constant of src/draw.rs).
-/

/-- DrawData::extend of src/lib.rs. -/
def extend (d : DrawData α) (vs : List (Vert α)) (idxs : List Nat) :
    DrawData α :=
  let base_index := d.verts.length % U32
  { verts := d.verts ++ vs,
    indicies := d.indicies ++ idxs.map (fun i => (base_index + i) % U32) }

/-- DrawData::tri of src/lib.rs. -/
def tri (d : DrawData α) (color : Nat) (a b c : Vec2 α) : DrawData α :=
  let base_index := d.verts.length % U32
  let col := colorToBytes color
  { verts := d.verts ++
      [⟨a, ⟨0, 0⟩, col⟩, ⟨b, ⟨0, 0⟩, col⟩, ⟨c, ⟨0, 0⟩, col⟩],
    indicies := d.indicies ++
      [base_index, (base_index + 1) % U32, (base_index + 2) % U32] }

/-- DrawData::tri_multicolor of src/lib.rs. -/
def tri_multicolor (d : DrawData α) (a b c : Vec2 α × Nat) : DrawData α :=
  let base_index := d.verts.length % U32
  { verts := d.verts ++
      [⟨a.1, ⟨0, 0⟩, colorToBytes a.2⟩,
       ⟨b.1, ⟨0, 0⟩, colorToBytes b.2⟩,
       ⟨c.1, ⟨0, 0⟩, colorToBytes c.2⟩],
    indicies := d.indicies ++
      [base_index, (base_index + 1) % U32, (base_index + 2) % U32] }

/-- DrawData::rect of src/lib.rs. -/
def rect (d : DrawData α) (color : Nat) (a b : Vec2 α) : DrawData α :=
  let col := colorToBytes color
  { verts := d.verts ++
      [⟨⟨a.x, a.y⟩, ⟨0, 0⟩, col⟩, ⟨⟨a.x, b.y⟩, ⟨0, 0⟩, col⟩,
       ⟨⟨b.x, a.y⟩, ⟨0, 0⟩, col⟩, ⟨⟨b.x, b.y⟩, ⟨0, 0⟩, col⟩],
    indicies := d.indicies ++ quadIndicies d.verts.length }

/-- DrawData::rect_uv of src/lib.rs. -/
def rect_uv (d : DrawData α) (color : Nat) (auv buv : Vec2 α × Vec2 α) :
    DrawData α :=
  let a := auv.1
  let uv_a := auv.2
  let b := buv.1
  let uv_b := buv.2
  let col := colorToBytes color
  { verts := d.verts ++
      [⟨⟨a.x, a.y⟩, ⟨uv_a.x, uv_a.y⟩, col⟩,
       ⟨⟨a.x, b.y⟩, ⟨uv_a.x, uv_b.y⟩, col⟩,
       ⟨⟨b.x, a.y⟩, ⟨uv_b.x, uv_a.y⟩, col⟩,
       ⟨⟨b.x, b.y⟩, ⟨uv_b.x, uv_b.y⟩, col⟩],
    indicies := d.indicies ++ quadIndicies d.verts.length }

/-- The interior-loop and last-point vertices of DrawData::polyline in
src/lib.rs. -/
def polylineVertsAux (sqrt : α → α) (half : α) (col : Nat × Nat × Nat × Nat) :
    Vec2 α → Vec2 α → List (Vec2 α) → List (Vert α)
  | p0, p1, [] =>
      let dl := p1.sub p0
      let nl := (dl.normal.unit sqrt).smul half
      [⟨p1.sub nl, ⟨0, 0⟩, col⟩, ⟨p1.add nl, ⟨0, 0⟩, col⟩]
  | p0, p1, p2 :: rest =>
      let d_in := p1.sub p0
      let n01 := d_in.normal.unit sqrt
      let miter :=
        ((((p2.sub p1).unit sqrt).add ((p1.sub p0).unit sqrt)).unit sqrt).normal
      let length := half / miter.dot n01
      ⟨p1.sub (miter.smul length), ⟨0, 0⟩, col⟩ ::
        ⟨p1.add (miter.smul length), ⟨0, 0⟩, col⟩ ::
        polylineVertsAux sqrt half col p1 p2 rest

/-- DrawData::polyline of src/lib.rs. -/
def polyline (sqrt : α → α) (d : DrawData α) (color : Nat) (thickness : α)
    (points : List (Vec2 α)) : DrawData α :=
  match points with
  | p0 :: p1 :: rest =>
      let col := colorToBytes color
      let half := thickness * (1 / 2)
      let df := p0.sub p1
      let nf := (df.normal.unit sqrt).smul half
      { verts := d.verts ++
          (⟨p0.add nf, ⟨0, 0⟩, col⟩ :: ⟨p0.sub nf, ⟨0, 0⟩, col⟩ ::
            polylineVertsAux sqrt half col p0 p1 rest),
        indicies := d.indicies ++
          (quadIndicies d.verts.length ++
            polylineIdxsAux (d.verts.length + 2) rest.length) }
  | _ => d

/-- The segment-loop vertices of DrawData::rect_polyline in src/lib.rs. -/
def rectPolylineVertsAux (sqrt : α → α) (half : α)
    (col : Nat × Nat × Nat × Nat) : Vec2 α → List (Vec2 α) → List (Vert α)
  | _, [] => []
  | p1, p2 :: rest =>
      let d_in := p2.sub p1
      let n := d_in.normal.unit sqrt
      ⟨p1.sub (n.smul half), ⟨0, 0⟩, col⟩ ::
        ⟨p1.add (n.smul half), ⟨0, 0⟩, col⟩ ::
        ⟨p2.sub (n.smul half), ⟨0, 0⟩, col⟩ ::
        ⟨p2.add (n.smul half), ⟨0, 0⟩, col⟩ ::
        rectPolylineVertsAux sqrt half col p2 rest

/-- DrawData::rect_polyline of src/lib.rs. -/
def rect_polyline (sqrt : α → α) (d : DrawData α) (color : Nat)
    (thickness : α) (points : List (Vec2 α)) : DrawData α :=
  match points with
  | p0 :: p1 :: rest =>
      let col := colorToBytes color
      let half := thickness * (1 / 2)
      let df := p0.sub p1
      let nf := (df.normal.unit sqrt).smul half
      { verts := d.verts ++
          (⟨p0.sub nf, ⟨0, 0⟩, col⟩ :: ⟨p0.add nf, ⟨0, 0⟩, col⟩ ::
            ⟨p1.sub nf, ⟨0, 0⟩, col⟩ :: ⟨p1.add nf, ⟨0, 0⟩, col⟩ ::
            rectPolylineVertsAux sqrt half col p1 rest),
        indicies := d.indicies ++
          (quadIndicies d.verts.length ++
            rectPolylineIdxsAux (d.verts.length + 4) rest.length) }
  | _ => d

end Lib

/-!
Event traces.  The source mutates its two buffers sequentially inside one
call; to reason about intermediate states (the moment each index is pushed)
each operation also gets a trace of single-element appends, in the exact
textual order of the Rust statements.  Replaying a trace reproduces the
operation (proved below), which grounds the traces in the state-level
definitions.
-/

/-- One buffer append: either one vertex or one index. -/
inductive Event (α : Type) where
  | vert (v : Vert α)
  | idx (i : Nat)
deriving DecidableEq

/-- The vertices of a trace, in order. -/
def eventVerts (es : List (Event α)) : List (Vert α) :=
  es.filterMap (fun e => match e with | .vert v => some v | .idx _ => none)

/-- The indices of a trace, in order. -/
def eventIdxs (es : List (Event α)) : List Nat :=
  es.filterMap (fun e => match e with | .vert _ => none | .idx i => some i)

/-- Replay a trace of appends against a batch. -/
def replay (d : DrawData α) : List (Event α) → DrawData α
  | [] => d
  | .vert v :: es => replay { d with verts := d.verts ++ [v] } es
  | .idx i :: es => replay { d with indicies := d.indicies ++ [i] } es

/-- Check of the at-append-time bound: walking the trace with a running
vertex count, every index pushed must be below the count at that moment. -/
def eventsOkB : Nat → List (Event α) → Bool
  | _, [] => true
  | vcount, .vert _ :: es => eventsOkB (vcount + 1) es
  | vcount, .idx i :: es => decide (i < vcount) && eventsOkB vcount es

/-- The six index events of one quad pattern. -/
def quadIdxEvents (first : Nat) : List (Event α) :=
  (quadIndicies first).map Event.idx

/-- Trace of DrawData::extend from a batch holding k vertices: all vertices,
then all shifted indices. -/
def extendEvents (k : Nat) (vs : List (Vert α)) (idxs : List Nat) :
    List (Event α) :=
  vs.map Event.vert ++ idxs.map (fun i => Event.idx ((k % U32 + i) % U32))

/-- Trace of DrawData::tri: three vertices, then three indices. -/
def triEvents (k : Nat) (color : Nat) (a b c : Vec2 α) : List (Event α) :=
  let col := colorToBytes color
  [Event.vert ⟨a, OPAQUE_UV α, col⟩, Event.vert ⟨b, OPAQUE_UV α, col⟩,
   Event.vert ⟨c, OPAQUE_UV α, col⟩,
   Event.idx (k % U32), Event.idx ((k % U32 + 1) % U32),
   Event.idx ((k % U32 + 2) % U32)]

/-- Trace of DrawData::tri_multicolor. -/
def triMulticolorEvents (k : Nat) (a b c : Vec2 α × Nat) : List (Event α) :=
  [Event.vert ⟨a.1, OPAQUE_UV α, colorToBytes a.2⟩,
   Event.vert ⟨b.1, OPAQUE_UV α, colorToBytes b.2⟩,
   Event.vert ⟨c.1, OPAQUE_UV α, colorToBytes c.2⟩,
   Event.idx (k % U32), Event.idx ((k % U32 + 1) % U32),
   Event.idx ((k % U32 + 2) % U32)]

/-- Trace of DrawData::rect: four corner vertices, then the quad pattern. -/
def rectEvents (k : Nat) (color : Nat) (a b : Vec2 α) : List (Event α) :=
  let col := colorToBytes color
  [Event.vert ⟨⟨a.x, a.y⟩, OPAQUE_UV α, col⟩,
   Event.vert ⟨⟨a.x, b.y⟩, OPAQUE_UV α, col⟩,
   Event.vert ⟨⟨b.x, a.y⟩, OPAQUE_UV α, col⟩,
   Event.vert ⟨⟨b.x, b.y⟩, OPAQUE_UV α, col⟩] ++ quadIdxEvents k

/-- Trace of DrawData::rect_uv. -/
def rectUvEvents (k : Nat) (color : Nat) (auv buv : Vec2 α × Vec2 α) :
    List (Event α) :=
  let a := auv.1
  let uv_a := auv.2
  let b := buv.1
  let uv_b := buv.2
  let col := colorToBytes color
  [Event.vert ⟨⟨a.x, a.y⟩, ⟨uv_a.x, uv_a.y⟩, col⟩,
   Event.vert ⟨⟨a.x, b.y⟩, ⟨uv_a.x, uv_b.y⟩, col⟩,
   Event.vert ⟨⟨b.x, a.y⟩, ⟨uv_b.x, uv_a.y⟩, col⟩,
   Event.vert ⟨⟨b.x, b.y⟩, ⟨uv_b.x, uv_b.y⟩, col⟩] ++ quadIdxEvents k

/-- Trace of the interior loop and last block of DrawData::polyline: for
each interior point, its two miter vertices and then the quad pattern at the
current count; finally the last point's two vertices (whose quad pattern was
already pushed by the previous iteration). -/
def polylineEventsAux (sqrt : α → α) (half : α) (col : Nat × Nat × Nat × Nat)
    (base : Nat) : Vec2 α → Vec2 α → List (Vec2 α) → List (Event α)
  | p0, p1, [] =>
      let dl := p1.sub p0
      let nl := (dl.normal.unit sqrt).smul half
      [Event.vert ⟨p1.sub nl, OPAQUE_UV α, col⟩,
       Event.vert ⟨p1.add nl, OPAQUE_UV α, col⟩]
  | p0, p1, p2 :: rest =>
      let d_in := p1.sub p0
      let n01 := d_in.normal.unit sqrt
      let miter :=
        ((((p2.sub p1).unit sqrt).add ((p1.sub p0).unit sqrt)).unit sqrt).normal
      let length := half / miter.dot n01
      Event.vert ⟨p1.sub (miter.smul length), OPAQUE_UV α, col⟩ ::
        Event.vert ⟨p1.add (miter.smul length), OPAQUE_UV α, col⟩ ::
        (quadIdxEvents base ++
          polylineEventsAux sqrt half col (base + 2) p1 p2 rest)

/-- Trace of DrawData::polyline from a batch holding k vertices. -/
def polylineEvents (sqrt : α → α) (k : Nat) (color : Nat) (thickness : α)
    (points : List (Vec2 α)) : List (Event α) :=
  match points with
  | p0 :: p1 :: rest =>
      let col := colorToBytes color
      let half := thickness * (1 / 2)
      let df := p0.sub p1
      let nf := (df.normal.unit sqrt).smul half
      Event.vert ⟨p0.add nf, OPAQUE_UV α, col⟩ ::
        Event.vert ⟨p0.sub nf, OPAQUE_UV α, col⟩ ::
        (quadIdxEvents k ++
          polylineEventsAux sqrt half col (k + 2) p0 p1 rest)
  | _ => []

/-- Trace of the segment loop of DrawData::rect_polyline. -/
def rectPolylineEventsAux (sqrt : α → α) (half : α)
    (col : Nat × Nat × Nat × Nat) (base : Nat) :
    Vec2 α → List (Vec2 α) → List (Event α)
  | _, [] => []
  | p1, p2 :: rest =>
      let d_in := p2.sub p1
      let n := d_in.normal.unit sqrt
      Event.vert ⟨p1.sub (n.smul half), OPAQUE_UV α, col⟩ ::
        Event.vert ⟨p1.add (n.smul half), OPAQUE_UV α, col⟩ ::
        Event.vert ⟨p2.sub (n.smul half), OPAQUE_UV α, col⟩ ::
        Event.vert ⟨p2.add (n.smul half), OPAQUE_UV α, col⟩ ::
        (quadIdxEvents base ++
          rectPolylineEventsAux sqrt half col (base + 4) p2 rest)

/-- Trace of DrawData::rect_polyline from a batch holding k vertices. -/
def rectPolylineEvents (sqrt : α → α) (k : Nat) (color : Nat) (thickness : α)
    (points : List (Vec2 α)) : List (Event α) :=
  match points with
  | p0 :: p1 :: rest =>
      let col := colorToBytes color
      let half := thickness * (1 / 2)
      let df := p0.sub p1
      let nf := (df.normal.unit sqrt).smul half
      Event.vert ⟨p0.sub nf, OPAQUE_UV α, col⟩ ::
        Event.vert ⟨p0.add nf, OPAQUE_UV α, col⟩ ::
        Event.vert ⟨p1.sub nf, OPAQUE_UV α, col⟩ ::
        Event.vert ⟨p1.add nf, OPAQUE_UV α, col⟩ ::
        (quadIdxEvents k ++
          rectPolylineEventsAux sqrt half col (k + 4) p1 rest)
  | _ => []

/-- One public DrawData operation together with its arguments. -/
inductive Call (α : Type) where
  | extend (vs : List (Vert α)) (idxs : List Nat)
  | tri (color : Nat) (a b c : Vec2 α)
  | tri_multicolor (a b c : Vec2 α × Nat)
  | rect (color : Nat) (a b : Vec2 α)
  | rect_uv (color : Nat) (auv buv : Vec2 α × Vec2 α)
  | polyline (color : Nat) (thickness : α) (points : List (Vec2 α))
  | rect_polyline (color : Nat) (thickness : α) (points : List (Vec2 α))

/-- Run one public operation of the src/draw.rs implementation. -/
def runCall (sqrt : α → α) (d : DrawData α) : Call α → DrawData α
  | .extend vs idxs => d.extend vs idxs
  | .tri color a b c => d.tri color a b c
  | .tri_multicolor a b c => d.tri_multicolor a b c
  | .rect color a b => d.rect color a b
  | .rect_uv color auv buv => d.rect_uv color auv buv
  | .polyline color thickness points => d.polyline sqrt color thickness points
  | .rect_polyline color thickness points =>
      d.rect_polyline sqrt color thickness points

/-- Run one public operation of the src/lib.rs implementation. -/
def runCallLib (sqrt : α → α) (d : DrawData α) : Call α → DrawData α
  | .extend vs idxs => Lib.extend d vs idxs
  | .tri color a b c => Lib.tri d color a b c
  | .tri_multicolor a b c => Lib.tri_multicolor d a b c
  | .rect color a b => Lib.rect d color a b
  | .rect_uv color auv buv => Lib.rect_uv d color auv buv
  | .polyline color thickness points =>
      Lib.polyline sqrt d color thickness points
  | .rect_polyline color thickness points =>
      Lib.rect_polyline sqrt d color thickness points

/-- Trace of one public operation from a batch holding k vertices. -/
def callEvents (sqrt : α → α) (k : Nat) : Call α → List (Event α)
  | .extend vs idxs => extendEvents k vs idxs
  | .tri color a b c => triEvents k color a b c
  | .tri_multicolor a b c => triMulticolorEvents k a b c
  | .rect color a b => rectEvents k color a b
  | .rect_uv color auv buv => rectUvEvents k color auv buv
  | .polyline color thickness points =>
      polylineEvents sqrt k color thickness points
  | .rect_polyline color thickness points =>
      rectPolylineEvents sqrt k color thickness points

/-- Side conditions of one call from a batch holding k vertices: extend's
documented caller contract, and the spec's supported regime that vertex
counts stay within the 32-bit index range. -/
def callOk (k : Nat) : Call α → Prop
  | .extend vs idxs => (∀ i ∈ idxs, i < vs.length) ∧ k + vs.length ≤ U32
  | .tri _ _ _ _ => k + 3 ≤ U32
  | .tri_multicolor _ _ _ => k + 3 ≤ U32
  | .rect _ _ _ => k + 4 ≤ U32
  | .rect_uv _ _ _ => k + 4 ≤ U32
  | .polyline _ _ points => k + 2 * points.length ≤ U32
  | .rect_polyline _ _ points => k + 4 * points.length ≤ U32

/-- Every stored index references an existing vertex slot: the no-dangling
invariant of the DrawData batch. -/
def goodIndices (d : DrawData α) : Prop :=
  ∀ i ∈ d.indicies, i < d.verts.length

/-! Basic lemmas about traces. -/

@[simp] theorem eventVerts_nil : eventVerts ([] : List (Event α)) = [] := rfl

@[simp] theorem eventIdxs_nil : eventIdxs ([] : List (Event α)) = [] := rfl

@[simp] theorem eventVerts_vert_cons (v : Vert α) (es : List (Event α)) :
    eventVerts (Event.vert v :: es) = v :: eventVerts es := rfl

@[simp] theorem eventVerts_idx_cons (i : Nat) (es : List (Event α)) :
    eventVerts (Event.idx i :: es) = eventVerts es := rfl

@[simp] theorem eventIdxs_vert_cons (v : Vert α) (es : List (Event α)) :
    eventIdxs (Event.vert v :: es) = eventIdxs es := rfl

@[simp] theorem eventIdxs_idx_cons (i : Nat) (es : List (Event α)) :
    eventIdxs (Event.idx i :: es) = i :: eventIdxs es := rfl

@[simp] theorem eventVerts_append (es fs : List (Event α)) :
    eventVerts (es ++ fs) = eventVerts es ++ eventVerts fs :=
  List.filterMap_append es fs _

@[simp] theorem eventIdxs_append (es fs : List (Event α)) :
    eventIdxs (es ++ fs) = eventIdxs es ++ eventIdxs fs :=
  List.filterMap_append es fs _

@[simp] theorem eventVerts_map_vert (vs : List (Vert α)) :
    eventVerts (vs.map Event.vert) = vs := by
  induction vs with
  | nil => rfl
  | cons v vs ih => simp [ih]

@[simp] theorem eventIdxs_map_vert (vs : List (Vert α)) :
    eventIdxs (vs.map Event.vert) = [] := by
  induction vs with
  | nil => rfl
  | cons v vs ih => simp [ih]

theorem eventVerts_map_idx_fn (f : Nat → Nat) (is : List Nat) :
    eventVerts ((is.map fun i => Event.idx (f i) : List (Event α))) = [] := by
  induction is with
  | nil => rfl
  | cons i is ih => simp [ih]

theorem eventIdxs_map_idx_fn (f : Nat → Nat) (is : List Nat) :
    eventIdxs ((is.map fun i => Event.idx (f i) : List (Event α))) =
      is.map f := by
  induction is with
  | nil => rfl
  | cons i is ih => simp [ih]

@[simp] theorem eventVerts_quadIdxEvents (f : Nat) :
    eventVerts (quadIdxEvents f : List (Event α)) = [] := by
  simp [quadIdxEvents, quadIndicies, eventVerts]

@[simp] theorem eventIdxs_quadIdxEvents (f : Nat) :
    eventIdxs (quadIdxEvents f : List (Event α)) = quadIndicies f := by
  simp [quadIdxEvents, quadIndicies, eventIdxs]

/-- Replaying a trace appends its vertices and its indices in order. -/
theorem replay_spec (es : List (Event α)) :
    ∀ d : DrawData α,
      replay d es = ⟨d.verts ++ eventVerts es, d.indicies ++ eventIdxs es⟩ := by
  induction es with
  | nil => intro d; simp [replay]
  | cons e es ih =>
      intro d
      cases e with
      | vert v => simp [replay, ih]
      | idx i => simp [replay, ih]

/-! Lengths of the produced vertex and index runs. -/

@[simp] theorem quadIndicies_length (b : Nat) : (quadIndicies b).length = 6 :=
  rfl

theorem polylineVertsAux_length (sqrt : α → α) (half : α)
    (col : Nat × Nat × Nat × Nat) (p0 p1 : Vec2 α) (rest : List (Vec2 α)) :
    (polylineVertsAux sqrt half col p0 p1 rest).length = 2 * rest.length + 2 := by
  induction rest generalizing p0 p1 with
  | nil => rfl
  | cons p2 r ih =>
      simp only [polylineVertsAux, List.length_cons, ih, List.length_cons]
      omega

theorem polylineIdxsAux_length (b n : Nat) :
    (polylineIdxsAux b n).length = 6 * n := by
  induction n generalizing b with
  | zero => rfl
  | succ n ih => simp only [polylineIdxsAux, List.length_append,
      quadIndicies_length, ih]; omega

theorem rectPolylineVertsAux_length (sqrt : α → α) (half : α)
    (col : Nat × Nat × Nat × Nat) (p1 : Vec2 α) (rest : List (Vec2 α)) :
    (rectPolylineVertsAux sqrt half col p1 rest).length = 4 * rest.length := by
  induction rest generalizing p1 with
  | nil => rfl
  | cons p2 r ih =>
      simp only [rectPolylineVertsAux, List.length_cons, ih]
      omega

theorem rectPolylineIdxsAux_length (b n : Nat) :
    (rectPolylineIdxsAux b n).length = 6 * n := by
  induction n generalizing b with
  | zero => rfl
  | succ n ih => simp only [rectPolylineIdxsAux, List.length_append,
      quadIndicies_length, ih]; omega

/-! Values of the produced indices. -/

theorem quadIndicies_eq {b : Nat} (h : b + 3 < U32) :
    quadIndicies b = [b, b + 1, b + 2, b + 1, b + 2, b + 3] := by
  have h0 : b % U32 = b := Nat.mod_eq_of_lt (by omega)
  have h1 : (b + 1) % U32 = b + 1 := Nat.mod_eq_of_lt (by omega)
  have h2 : (b + 2) % U32 = b + 2 := Nat.mod_eq_of_lt (by omega)
  have h3 : (b + 3) % U32 = b + 3 := Nat.mod_eq_of_lt (by omega)
  simp [quadIndicies, h0, h1, h2, h3]

theorem mem_quadIndicies {b i : Nat} (h : b + 3 < U32)
    (hm : i ∈ quadIndicies b) : b ≤ i ∧ i < b + 4 := by
  rw [quadIndicies_eq h] at hm
  simp only [List.mem_cons, List.not_mem_nil, or_false] at hm
  rcases hm with h | h | h | h | h | h <;> omega

theorem mem_polylineIdxsAux {i : Nat} :
    ∀ n b, b + 2 * n + 2 ≤ U32 → i ∈ polylineIdxsAux b n →
      b ≤ i ∧ i < b + 2 * n + 2 := by
  intro n
  induction n with
  | zero => intro b _ hm; simp [polylineIdxsAux] at hm
  | succ n ih =>
      intro b hb hm
      simp only [polylineIdxsAux, List.mem_append] at hm
      rcases hm with hm | hm
      · have := mem_quadIndicies (by omega) hm
        omega
      · have := ih (b + 2) (by omega) hm
        omega

theorem eventVerts_polylineEventsAux (sqrt : α → α) (half : α)
    (col : Nat × Nat × Nat × Nat) (p0 p1 : Vec2 α) (rest : List (Vec2 α))
    (base : Nat) :
    eventVerts (polylineEventsAux sqrt half col base p0 p1 rest) =
      polylineVertsAux sqrt half col p0 p1 rest := by
  induction rest generalizing base p0 p1 with
  | nil => rfl
  | cons p2 r ih => simp [polylineEventsAux, polylineVertsAux, ih]

theorem eventIdxs_polylineEventsAux (sqrt : α → α) (half : α)
    (col : Nat × Nat × Nat × Nat) (p0 p1 : Vec2 α) (rest : List (Vec2 α))
    (base : Nat) :
    eventIdxs (polylineEventsAux sqrt half col base p0 p1 rest) =
      polylineIdxsAux base rest.length := by
  induction rest generalizing base p0 p1 with
  | nil => rfl
  | cons p2 r ih => simp [polylineEventsAux, polylineIdxsAux, ih]

theorem eventVerts_rectPolylineEventsAux (sqrt : α → α) (half : α)
    (col : Nat × Nat × Nat × Nat) (p1 : Vec2 α) (rest : List (Vec2 α))
    (base : Nat) :
    eventVerts (rectPolylineEventsAux sqrt half col base p1 rest) =
      rectPolylineVertsAux sqrt half col p1 rest := by
  induction rest generalizing base p1 with
  | nil => rfl
  | cons p2 r ih => simp [rectPolylineEventsAux, rectPolylineVertsAux, ih]

theorem eventIdxs_rectPolylineEventsAux (sqrt : α → α) (half : α)
    (col : Nat × Nat × Nat × Nat) (p1 : Vec2 α) (rest : List (Vec2 α))
    (base : Nat) :
    eventIdxs (rectPolylineEventsAux sqrt half col base p1 rest) =
      rectPolylineIdxsAux base rest.length := by
  induction rest generalizing base p1 with
  | nil => rfl
  | cons p2 r ih => simp [rectPolylineEventsAux, rectPolylineIdxsAux, ih]

/-- Replaying the trace of any public operation reproduces the operation:
the traces are a faithful, statement-by-statement account of the source. -/
theorem replay_callEvents (sqrt : α → α) (d : DrawData α) (c : Call α) :
    replay d (callEvents sqrt d.verts.length c) = runCall sqrt d c := by
  cases c with
  | extend vs idxs =>
      simp [callEvents, runCall, extendEvents, replay_spec, DrawData.extend,
        eventIdxs_map_idx_fn, eventVerts_map_idx_fn]
  | tri color a b c =>
      simp [callEvents, runCall, triEvents, replay_spec, DrawData.tri]
  | tri_multicolor a b c =>
      simp [callEvents, runCall, triMulticolorEvents, replay_spec,
        DrawData.tri_multicolor]
  | rect color a b =>
      simp [callEvents, runCall, rectEvents, replay_spec, DrawData.rect]
  | rect_uv color auv buv =>
      simp [callEvents, runCall, rectUvEvents, replay_spec, DrawData.rect_uv]
  | polyline color thickness points =>
      cases points with
      | nil => simp [callEvents, runCall, polylineEvents, DrawData.polyline,
          replay_spec]
      | cons p0 ps =>
          cases ps with
          | nil => simp [callEvents, runCall, polylineEvents,
              DrawData.polyline, replay_spec]
          | cons p1 rest =>
              simp [callEvents, runCall, polylineEvents, DrawData.polyline,
                replay_spec, eventVerts_polylineEventsAux,
                eventIdxs_polylineEventsAux]
  | rect_polyline color thickness points =>
      cases points with
      | nil => simp [callEvents, runCall, rectPolylineEvents,
          DrawData.rect_polyline, replay_spec]
      | cons p0 ps =>
          cases ps with
          | nil => simp [callEvents, runCall, rectPolylineEvents,
              DrawData.rect_polyline, replay_spec]
          | cons p1 rest =>
              simp [callEvents, runCall, rectPolylineEvents,
                DrawData.rect_polyline, replay_spec,
                eventVerts_rectPolylineEventsAux,
                eventIdxs_rectPolylineEventsAux]

theorem mem_rectPolylineIdxsAux {i : Nat} :
    ∀ n b, b + 4 * n ≤ U32 → i ∈ rectPolylineIdxsAux b n →
      b ≤ i ∧ i < b + 4 * n := by
  intro n
  induction n with
  | zero => intro b _ hm; simp [rectPolylineIdxsAux] at hm
  | succ n ih =>
      intro b hb hm
      simp only [rectPolylineIdxsAux, List.mem_append] at hm
      rcases hm with hm | hm
      · have := mem_quadIndicies (by omega) hm
        omega
      · have := ih (b + 4) (by omega) hm
        omega

theorem lib_polylineVertsAux_eq (sqrt : α → α) (half : α)
    (col : Nat × Nat × Nat × Nat) (p0 p1 : Vec2 α) (rest : List (Vec2 α)) :
    Lib.polylineVertsAux sqrt half col p0 p1 rest =
      polylineVertsAux sqrt half col p0 p1 rest := by
  induction rest generalizing p0 p1 with
  | nil => rfl
  | cons p2 r ih => simp only [Lib.polylineVertsAux, polylineVertsAux, ih,
      OPAQUE_UV]

theorem lib_rectPolylineVertsAux_eq (sqrt : α → α) (half : α)
    (col : Nat × Nat × Nat × Nat) (p1 : Vec2 α) (rest : List (Vec2 α)) :
    Lib.rectPolylineVertsAux sqrt half col p1 rest =
      rectPolylineVertsAux sqrt half col p1 rest := by
  induction rest generalizing p1 with
  | nil => rfl
  | cons p2 r ih => simp only [Lib.rectPolylineVertsAux,
      rectPolylineVertsAux, ih, OPAQUE_UV]

/-- C9: the DrawData implementation of src/lib.rs and the one of
src/draw.rs are observationally equal: from equal vertex and index
contents, every corresponding public operation applied with equal arguments
produces identical vertex sequences and identical index sequences. -/
theorem lib_drawData_observationally_eq (sqrt : α → α) (d : DrawData α)
    (c : Call α) : runCallLib sqrt d c = runCall sqrt d c := by
  cases c with
  | extend vs idxs => rfl
  | tri color a b c => rfl
  | tri_multicolor a b c => rfl
  | rect color a b => rfl
  | rect_uv color auv buv => rfl
  | polyline color thickness points =>
      cases points with
      | nil => rfl
      | cons p0 ps =>
          cases ps with
          | nil => rfl
          | cons p1 rest =>
              simp only [runCallLib, runCall, Lib.polyline, DrawData.polyline,
                lib_polylineVertsAux_eq, OPAQUE_UV]
  | rect_polyline color thickness points =>
      cases points with
      | nil => rfl
      | cons p0 ps =>
          cases ps with
          | nil => rfl
          | cons p1 rest =>
              simp only [runCallLib, runCall, Lib.rect_polyline,
                DrawData.rect_polyline, lib_rectPolylineVertsAux_eq, OPAQUE_UV]

/-! Concrete inputs shared by the witnesses below. -/

/-- The empty batch over the rational scalar model. -/
def dEmpty : DrawData ℚ := ⟨[], []⟩

/-- A concrete vertex over the rational scalar model. -/
def v00 : Vert ℚ := ⟨⟨0, 0⟩, ⟨0, 0⟩, (0, 0, 0, 0)⟩

/-- A square-root stand-in for the rational scalar model; every property
proved below holds for an arbitrary square-root function. -/
def sqrtQ : ℚ → ℚ := fun q => q

/-- C2: extend grows the vertex sequence by exactly the supplied vertex
list verbatim, and appends, for each input index i, the index i + k where
k is the vertex count before the call (within the spec's supported regime
of 32-bit index arithmetic). -/
theorem extend_appends_verbatim_relative (d : DrawData α)
    (vs : List (Vert α)) (idxs : List Nat)
    (h : ∀ i ∈ idxs, d.verts.length + i < U32) :
    (d.extend vs idxs).verts = d.verts ++ vs ∧
      (d.extend vs idxs).indicies =
        d.indicies ++ idxs.map (fun i => i + d.verts.length) := by
  refine ⟨rfl, ?_⟩
  simp only [DrawData.extend]
  congr 1
  apply List.map_congr_left
  intro i hi
  have hx := h i hi
  have h1 : d.verts.length % U32 = d.verts.length :=
    Nat.mod_eq_of_lt (by omega)
  rw [h1, Nat.mod_eq_of_lt hx, Nat.add_comm]

/-- Witness for C2 at a concrete input. -/
theorem extend_appends_verbatim_relative_witness :
    (∀ i ∈ [0], dEmpty.verts.length + i < U32) ∧
      ((dEmpty.extend [v00] [0]).verts = dEmpty.verts ++ [v00] ∧
        (dEmpty.extend [v00] [0]).indicies =
          dEmpty.indicies ++ [0].map (fun i => i + dEmpty.verts.length)) :=
  ⟨by decide, extend_appends_verbatim_relative dEmpty [v00] [0] (by decide)⟩

/-- C3: polyline appends exactly 2N vertices and 6(N-1) indices for every
point sequence of length N at least 2, and for fewer than 2 points leaves
both sequences unchanged, reporting no error (the operation is total). -/
theorem polyline_counts (sqrt : α → α) (d : DrawData α) (color : Nat)
    (thickness : α) (points : List (Vec2 α)) :
    if points.length < 2 then d.polyline sqrt color thickness points = d
    else
      (d.polyline sqrt color thickness points).verts.length =
          d.verts.length + 2 * points.length ∧
        (d.polyline sqrt color thickness points).indicies.length =
          d.indicies.length + 6 * (points.length - 1) := by
  match points with
  | [] => simp [DrawData.polyline]
  | [p0] => simp [DrawData.polyline]
  | p0 :: p1 :: rest =>
      rw [if_neg (by simp)]
      constructor
      · simp only [DrawData.polyline, List.length_append, List.length_cons,
          polylineVertsAux_length]
        omega
      · simp only [DrawData.polyline, List.length_append, List.length_cons,
          quadIndicies_length, polylineIdxsAux_length]
        omega

/-- C6: rect_polyline appends exactly 4(N-1) vertices and 6(N-1) indices
(one independent rectangle per segment) for every point sequence of length
N at least 2, and for fewer than 2 points leaves both sequences
unchanged. -/
theorem rect_polyline_counts (sqrt : α → α) (d : DrawData α) (color : Nat)
    (thickness : α) (points : List (Vec2 α)) :
    if points.length < 2 then d.rect_polyline sqrt color thickness points = d
    else
      (d.rect_polyline sqrt color thickness points).verts.length =
          d.verts.length + 4 * (points.length - 1) ∧
        (d.rect_polyline sqrt color thickness points).indicies.length =
          d.indicies.length + 6 * (points.length - 1) := by
  match points with
  | [] => simp [DrawData.rect_polyline]
  | [p0] => simp [DrawData.rect_polyline]
  | p0 :: p1 :: rest =>
      rw [if_neg (by simp)]
      constructor
      · simp only [DrawData.rect_polyline, List.length_append,
          List.length_cons, rectPolylineVertsAux_length]
        omega
      · simp only [DrawData.rect_polyline, List.length_append,
          List.length_cons, quadIndicies_length, rectPolylineIdxsAux_length]
        omega

/-- C7: tri appends exactly 3 vertices with uniform color in the given
order a, b, c and the 3 indices k, k+1, k+2 where k is the vertex count
before the call (within the spec's supported regime of 32-bit index
arithmetic). -/
theorem tri_appends (d : DrawData α) (color : Nat) (a b c : Vec2 α)
    (h : d.verts.length + 2 < U32) :
    (d.tri color a b c).verts = d.verts ++
        [⟨a, OPAQUE_UV α, colorToBytes color⟩,
         ⟨b, OPAQUE_UV α, colorToBytes color⟩,
         ⟨c, OPAQUE_UV α, colorToBytes color⟩] ∧
      (d.tri color a b c).indicies = d.indicies ++
        [d.verts.length, d.verts.length + 1, d.verts.length + 2] := by
  refine ⟨rfl, ?_⟩
  simp only [DrawData.tri]
  have h0 : d.verts.length % U32 = d.verts.length :=
    Nat.mod_eq_of_lt (by omega)
  have h1 : (d.verts.length + 1) % U32 = d.verts.length + 1 :=
    Nat.mod_eq_of_lt (by omega)
  have h2 : (d.verts.length + 2) % U32 = d.verts.length + 2 :=
    Nat.mod_eq_of_lt (by omega)
  rw [h0, h1, h2]

/-- Witness for C7 at a concrete input: the spec's Scenario A, a uniform
triangle at (0,0), (0,1), (1,0) on an empty batch. -/
theorem tri_appends_witness :
    dEmpty.verts.length + 2 < U32 ∧
      ((dEmpty.tri 4294967295 ⟨0, 0⟩ ⟨0, 1⟩ ⟨1, 0⟩).verts = dEmpty.verts ++
          [⟨⟨0, 0⟩, OPAQUE_UV ℚ, colorToBytes 4294967295⟩,
           ⟨⟨0, 1⟩, OPAQUE_UV ℚ, colorToBytes 4294967295⟩,
           ⟨⟨1, 0⟩, OPAQUE_UV ℚ, colorToBytes 4294967295⟩] ∧
        (dEmpty.tri 4294967295 ⟨0, 0⟩ ⟨0, 1⟩ ⟨1, 0⟩).indicies =
          dEmpty.indicies ++ [0, 1, 2]) :=
  ⟨by decide, tri_appends dEmpty 4294967295 ⟨0, 0⟩ ⟨0, 1⟩ ⟨1, 0⟩ (by decide)⟩

/-- C8: the divisor used by vector normalization is the maximum of the
vector's length and a strictly positive floor, so it is strictly positive
(in particular nonzero) for every input vector — the zero vector and
coincident polyline points included — and every square-root function. -/
theorem unit_divisor_never_zero (sqrt : α → α) (v : Vec2 α) :
    0 < max (v.len sqrt) (minLen α) ∧ max (v.len sqrt) (minLen α) ≠ 0 ∧
      v.unit sqrt = v.smul (1 / max (v.len sqrt) (minLen α)) := by
  have hpos : (0 : α) < minLen α := by norm_num [minLen]
  have h : 0 < max (v.len sqrt) (minLen α) :=
    lt_of_lt_of_le hpos (le_max_right _ _)
  exact ⟨h, ne_of_gt h, rfl⟩

/-! Geometry of the rect quad: the two triangles of the fixed index
pattern cover exactly the axis-aligned box spanned by the two corners. -/

/-- Membership in the closed triangle with the given corners, via
barycentric coordinates. -/
def inTriangle (A B C p : Vec2 α) : Prop :=
  ∃ s t : α, 0 ≤ s ∧ 0 ≤ t ∧ s + t ≤ 1 ∧
    p = A.add (((B.sub A).smul s).add ((C.sub A).smul t))

/-- Membership in the closed axis-aligned box spanned by two corners given
in either order. -/
def inBox (a b p : Vec2 α) : Prop :=
  min a.x b.x ≤ p.x ∧ p.x ≤ max a.x b.x ∧
    min a.y b.y ≤ p.y ∧ p.y ≤ max a.y b.y

theorem between_param_le {c d x : α} (hcd : c ≤ d) (h1 : c ≤ x)
    (h2 : x ≤ d) : ∃ u : α, 0 ≤ u ∧ u ≤ 1 ∧ x = c + u * (d - c) := by
  rcases eq_or_lt_of_le hcd with he | hlt
  · refine ⟨0, le_refl 0, zero_le_one, ?_⟩
    have : x = c := le_antisymm (he ▸ h2) h1
    rw [this]
    ring
  · have hne : d - c ≠ 0 := sub_ne_zero.2 (ne_of_gt hlt)
    refine ⟨(x - c) / (d - c), div_nonneg (by linarith) (by linarith), ?_, ?_⟩
    · rw [div_le_one (by linarith)]
      linarith
    · field_simp

theorem between_param {c d x : α} (h1 : min c d ≤ x) (h2 : x ≤ max c d) :
    ∃ u : α, 0 ≤ u ∧ u ≤ 1 ∧ x = c + u * (d - c) := by
  rcases le_total c d with h | h
  · rw [min_eq_left h] at h1
    rw [max_eq_right h] at h2
    exact between_param_le h h1 h2
  · rw [min_eq_right h] at h1
    rw [max_eq_left h] at h2
    obtain ⟨w, hw0, hw1, hw⟩ := between_param_le h h1 h2
    refine ⟨1 - w, by linarith, by linarith, ?_⟩
    rw [hw]
    ring

theorem param_between (c d u : α) (h0 : 0 ≤ u) (h1 : u ≤ 1) :
    min c d ≤ c + u * (d - c) ∧ c + u * (d - c) ≤ max c d := by
  rcases le_total c d with h | h
  · rw [min_eq_left h, max_eq_right h]
    constructor
    · nlinarith [mul_nonneg h0 (sub_nonneg.2 h)]
    · nlinarith [mul_nonneg (sub_nonneg.2 h1) (sub_nonneg.2 h)]
  · rw [min_eq_right h, max_eq_left h]
    constructor
    · nlinarith [mul_nonneg (sub_nonneg.2 h1) (sub_nonneg.2 h)]
    · nlinarith [mul_nonneg h0 (sub_nonneg.2 h)]

/-- The union of the two triangles (A,B,C) and (B,C,D) built from the rect
corner pattern is exactly the axis-aligned box spanned by the corners. -/
theorem box_eq_two_triangles (a b p : Vec2 α) :
    inBox a b p ↔
      inTriangle ⟨a.x, a.y⟩ ⟨a.x, b.y⟩ ⟨b.x, a.y⟩ p ∨
        inTriangle ⟨a.x, b.y⟩ ⟨b.x, a.y⟩ ⟨b.x, b.y⟩ p := by
  obtain ⟨px, py⟩ := p
  constructor
  · rintro ⟨hx1, hx2, hy1, hy2⟩
    dsimp only at hx1 hx2 hy1 hy2
    obtain ⟨u, hu0, hu1, hux⟩ := between_param hx1 hx2
    obtain ⟨v, hv0, hv1, hvy⟩ := between_param hy1 hy2
    rcases le_total (u + v) 1 with huv | huv
    · left
      refine ⟨v, u, hv0, hu0, by linarith, ?_⟩
      simp only [Vec2.add, Vec2.sub, Vec2.smul, Vec2.mk.injEq]
      constructor
      · rw [hux]; ring
      · rw [hvy]; ring
    · right
      refine ⟨1 - v, u + v - 1, by linarith, by linarith, by linarith, ?_⟩
      simp only [Vec2.add, Vec2.sub, Vec2.smul, Vec2.mk.injEq]
      constructor
      · rw [hux]; ring
      · rw [hvy]; ring
  · rintro (⟨s, t, hs, ht, hst, heq⟩ | ⟨s, t, hs, ht, hst, heq⟩)
    · simp only [Vec2.add, Vec2.sub, Vec2.smul, Vec2.mk.injEq] at heq
      obtain ⟨hex, hey⟩ := heq
      have hx : px = a.x + t * (b.x - a.x) := by rw [hex]; ring
      have hy : py = a.y + s * (b.y - a.y) := by rw [hey]; ring
      have hbx := param_between a.x b.x t ht (by linarith)
      have hby := param_between a.y b.y s hs (by linarith)
      rw [← hx] at hbx
      rw [← hy] at hby
      exact ⟨hbx.1, hbx.2, hby.1, hby.2⟩
    · simp only [Vec2.add, Vec2.sub, Vec2.smul, Vec2.mk.injEq] at heq
      obtain ⟨hex, hey⟩ := heq
      have hx : px = a.x + (s + t) * (b.x - a.x) := by rw [hex]; ring
      have hy : py = b.y + s * (a.y - b.y) := by rw [hey]; ring
      have hbx := param_between a.x b.x (s + t) (by linarith) hst
      have hby := param_between b.y a.y s hs (by linarith)
      rw [← hx] at hbx
      rw [← hy] at hby
      refine ⟨hbx.1, hbx.2, ?_, ?_⟩
      · rw [min_comm a.y b.y]
        exact hby.1
      · rw [max_comm a.y b.y]
        exact hby.2

/-- C5: rect appends exactly the 4 corner vertices {a.x,a.y}, {a.x,b.y},
{b.x,a.y}, {b.x,b.y} in that order and 6 indices in the fixed pattern
(0,1,2),(1,2,3) relative to the first new slot k; the 6 indices reference
exactly 4 distinct slots, and the two triangles they form cover exactly
the axis-aligned box spanned by a and b (within the spec's supported
regime of 32-bit index arithmetic). -/
theorem rect_quad (d : DrawData α) (color : Nat) (a b : Vec2 α)
    (h : d.verts.length + 4 ≤ U32) :
    (d.rect color a b).verts = d.verts ++
        [⟨⟨a.x, a.y⟩, OPAQUE_UV α, colorToBytes color⟩,
         ⟨⟨a.x, b.y⟩, OPAQUE_UV α, colorToBytes color⟩,
         ⟨⟨b.x, a.y⟩, OPAQUE_UV α, colorToBytes color⟩,
         ⟨⟨b.x, b.y⟩, OPAQUE_UV α, colorToBytes color⟩] ∧
      (d.rect color a b).indicies = d.indicies ++
        [d.verts.length, d.verts.length + 1, d.verts.length + 2,
         d.verts.length + 1, d.verts.length + 2, d.verts.length + 3] ∧
      ([d.verts.length, d.verts.length + 1, d.verts.length + 2,
        d.verts.length + 1, d.verts.length + 2,
        d.verts.length + 3].toFinset.card = 4) ∧
      ∀ p, inBox a b p ↔
        inTriangle ⟨a.x, a.y⟩ ⟨a.x, b.y⟩ ⟨b.x, a.y⟩ p ∨
          inTriangle ⟨a.x, b.y⟩ ⟨b.x, a.y⟩ ⟨b.x, b.y⟩ p := by
  refine ⟨rfl, ?_, ?_, fun p => box_eq_two_triangles a b p⟩
  · simp only [DrawData.rect]
    rw [quadIndicies_eq (by omega)]
  · have hset : [d.verts.length, d.verts.length + 1, d.verts.length + 2,
        d.verts.length + 1, d.verts.length + 2,
        d.verts.length + 3].toFinset =
        {d.verts.length, d.verts.length + 1, d.verts.length + 2,
         d.verts.length + 3} := by
      ext x
      simp only [List.mem_toFinset, List.mem_cons, List.not_mem_nil,
        or_false, Finset.mem_insert, Finset.mem_singleton]
      omega
    rw [hset, Finset.card_insert_of_not_mem (by
        simp only [Finset.mem_insert, Finset.mem_singleton]
        omega),
      Finset.card_insert_of_not_mem (by
        simp only [Finset.mem_insert, Finset.mem_singleton]
        omega),
      Finset.card_insert_of_not_mem (by
        simp only [Finset.mem_singleton]
        omega),
      Finset.card_singleton]

/-- Witness for C5 at a concrete input. -/
theorem rect_quad_witness :
    dEmpty.verts.length + 4 ≤ U32 ∧
      ((dEmpty.rect 255 ⟨0, 0⟩ ⟨1, 2⟩).verts = dEmpty.verts ++
          [⟨⟨0, 0⟩, OPAQUE_UV ℚ, colorToBytes 255⟩,
           ⟨⟨0, 2⟩, OPAQUE_UV ℚ, colorToBytes 255⟩,
           ⟨⟨1, 0⟩, OPAQUE_UV ℚ, colorToBytes 255⟩,
           ⟨⟨1, 2⟩, OPAQUE_UV ℚ, colorToBytes 255⟩] ∧
        (dEmpty.rect 255 ⟨0, 0⟩ ⟨1, 2⟩).indicies = dEmpty.indicies ++
          [0, 1, 2, 1, 2, 3] ∧
        ([0, 1, 2, 1, 2, 3].toFinset.card = 4) ∧
        ∀ p : Vec2 ℚ, inBox ⟨0, 0⟩ ⟨1, 2⟩ p ↔
          inTriangle ⟨0, 0⟩ ⟨0, 2⟩ ⟨1, 0⟩ p ∨
            inTriangle ⟨0, 2⟩ ⟨1, 0⟩ ⟨1, 2⟩ p) :=
  ⟨by decide, rect_quad dEmpty 255 ⟨0, 0⟩ ⟨1, 2⟩ (by decide)⟩

/-! Vertex placement of polyline against the spec's formulas. -/

/-- The miter normal at an interior point, following the spec's wording:
the perpendicular of the normalized sum of the two adjacent segments' unit
directions. -/
def specMiterNormal (sqrt : α → α) (p0 p1 p2 : Vec2 α) : Vec2 α :=
  ((((p2.sub p1).unit sqrt).add ((p1.sub p0).unit sqrt)).unit sqrt).normal

/-- The miter offset length, following the spec's wording: the half
thickness divided by the dot product of the miter normal with the unit
perpendicular of the incoming segment p1 - p0. -/
def specMiterLen (sqrt : α → α) (half : α) (p0 p1 p2 : Vec2 α) : α :=
  half / (specMiterNormal sqrt p0 p1 p2).dot ((p1.sub p0).normal.unit sqrt)

/-- The two vertices the spec assigns to an interior point: the point
offset by minus and plus the miter normal scaled by the miter length. -/
def specMiterPair (sqrt : α → α) (half : α) (col : Nat × Nat × Nat × Nat)
    (p0 p1 p2 : Vec2 α) : Vert α × Vert α :=
  (⟨p1.sub ((specMiterNormal sqrt p0 p1 p2).smul
      (specMiterLen sqrt half p0 p1 p2)), OPAQUE_UV α, col⟩,
   ⟨p1.add ((specMiterNormal sqrt p0 p1 p2).smul
      (specMiterLen sqrt half p0 p1 p2)), OPAQUE_UV α, col⟩)

/-- The offset the spec assigns to an end point: the unit perpendicular of
its own segment (towards the other end q) scaled by the half thickness. -/
def specEndOffset (sqrt : α → α) (half : α) (p q : Vec2 α) : Vec2 α :=
  ((p.sub q).normal.unit sqrt).smul half

theorem polylineVertsAux_interior (sqrt : α → α) (half : α)
    (col : Nat × Nat × Nat × Nat) :
    ∀ (rest : List (Vec2 α)) (p0 p1 : Vec2 α) (j : Nat), j < rest.length →
      (polylineVertsAux sqrt half col p0 p1 rest)[2 * j]? =
          some (specMiterPair sqrt half col
            ((p0 :: p1 :: rest).getD j Vec2.zero)
            ((p0 :: p1 :: rest).getD (j + 1) Vec2.zero)
            ((p0 :: p1 :: rest).getD (j + 2) Vec2.zero)).1 ∧
        (polylineVertsAux sqrt half col p0 p1 rest)[2 * j + 1]? =
          some (specMiterPair sqrt half col
            ((p0 :: p1 :: rest).getD j Vec2.zero)
            ((p0 :: p1 :: rest).getD (j + 1) Vec2.zero)
            ((p0 :: p1 :: rest).getD (j + 2) Vec2.zero)).2 := by
  intro rest
  induction rest with
  | nil => intro p0 p1 j h; simp at h
  | cons p2 r ih =>
      intro p0 p1 j h
      match j with
      | 0 =>
          constructor
          · rw [show (0 : Nat) + 2 = 0 + 1 + 1 from by omega]
            simp only [Nat.mul_zero, polylineVertsAux,
              List.getElem?_cons_zero, List.getD_cons_succ,
              List.getD_cons_zero]
            rfl
          · rw [show (0 : Nat) + 2 = 0 + 1 + 1 from by omega]
            simp only [Nat.mul_zero, polylineVertsAux,
              List.getElem?_cons_succ, List.getElem?_cons_zero,
              List.getD_cons_succ, List.getD_cons_zero]
            rfl
      | j + 1 =>
          have hj : j < r.length := by
            simp only [List.length_cons] at h
            omega
          have ihj := ih p1 p2 j hj
          simp only [List.getD_cons_succ] at ihj
          rw [show 2 * (j + 1) = 2 * j + 1 + 1 from by omega,
            show j + 1 + 2 = j + 2 + 1 from by omega]
          simp only [polylineVertsAux, List.getElem?_cons_succ,
            List.getD_cons_succ]
          exact ihj

theorem polylineVertsAux_last (sqrt : α → α) (half : α)
    (col : Nat × Nat × Nat × Nat) :
    ∀ (rest : List (Vec2 α)) (p0 p1 : Vec2 α),
      (polylineVertsAux sqrt half col p0 p1 rest)[2 * rest.length]? =
          some ⟨((p0 :: p1 :: rest).getD (rest.length + 1) Vec2.zero).sub
              (specEndOffset sqrt half
                ((p0 :: p1 :: rest).getD (rest.length + 1) Vec2.zero)
                ((p0 :: p1 :: rest).getD rest.length Vec2.zero)),
            OPAQUE_UV α, col⟩ ∧
        (polylineVertsAux sqrt half col p0 p1 rest)[2 * rest.length + 1]? =
          some ⟨((p0 :: p1 :: rest).getD (rest.length + 1) Vec2.zero).add
              (specEndOffset sqrt half
                ((p0 :: p1 :: rest).getD (rest.length + 1) Vec2.zero)
                ((p0 :: p1 :: rest).getD rest.length Vec2.zero)),
            OPAQUE_UV α, col⟩ := by
  intro rest
  induction rest with
  | nil =>
      intro p0 p1
      constructor
      · simp only [List.length_nil, Nat.mul_zero, polylineVertsAux,
          List.getElem?_cons_zero, List.getD_cons_succ, List.getD_cons_zero]
        rfl
      · simp only [List.length_nil, Nat.mul_zero, polylineVertsAux,
          List.getElem?_cons_succ, List.getElem?_cons_zero,
          List.getD_cons_succ, List.getD_cons_zero]
        rfl
  | cons p2 r ih =>
      intro p0 p1
      simp only [List.length_cons]
      have ihp := ih p1 p2
      simp only [List.getD_cons_succ] at ihp
      rw [show 2 * (r.length + 1) = 2 * r.length + 1 + 1 from by omega]
      simp only [polylineVertsAux, List.getElem?_cons_succ,
        List.getD_cons_succ]
      exact ihp

/-- C4: for every point sequence with at least 3 points, polyline places
each interior point's two vertices at the point minus and plus the miter
normal (the perpendicular of the normalized sum of the two adjacent
segments' unit directions) scaled by half-thickness / dot(miter normal,
unit perpendicular of the incoming segment); the first and last points'
two vertices are offset from the point only by their own segment's unit
perpendicular scaled by half the thickness. -/
theorem polyline_miter_placement (sqrt : α → α) (d : DrawData α)
    (color : Nat) (thickness : α) (ps : List (Vec2 α))
    (h3 : 3 ≤ ps.length) :
    ((d.polyline sqrt color thickness ps).verts[d.verts.length]? =
        some ⟨(ps.getD 0 Vec2.zero).add
            (specEndOffset sqrt (thickness * (1 / 2)) (ps.getD 0 Vec2.zero)
              (ps.getD 1 Vec2.zero)),
          OPAQUE_UV α, colorToBytes color⟩ ∧
      (d.polyline sqrt color thickness ps).verts[d.verts.length + 1]? =
        some ⟨(ps.getD 0 Vec2.zero).sub
            (specEndOffset sqrt (thickness * (1 / 2)) (ps.getD 0 Vec2.zero)
              (ps.getD 1 Vec2.zero)),
          OPAQUE_UV α, colorToBytes color⟩) ∧
    ((d.polyline sqrt color thickness ps).verts[d.verts.length +
          2 * (ps.length - 1)]? =
        some ⟨(ps.getD (ps.length - 1) Vec2.zero).sub
            (specEndOffset sqrt (thickness * (1 / 2))
              (ps.getD (ps.length - 1) Vec2.zero)
              (ps.getD (ps.length - 2) Vec2.zero)),
          OPAQUE_UV α, colorToBytes color⟩ ∧
      (d.polyline sqrt color thickness ps).verts[d.verts.length +
          2 * (ps.length - 1) + 1]? =
        some ⟨(ps.getD (ps.length - 1) Vec2.zero).add
            (specEndOffset sqrt (thickness * (1 / 2))
              (ps.getD (ps.length - 1) Vec2.zero)
              (ps.getD (ps.length - 2) Vec2.zero)),
          OPAQUE_UV α, colorToBytes color⟩) ∧
    ∀ j, 1 ≤ j → j ≤ ps.length - 2 →
      (d.polyline sqrt color thickness ps).verts[d.verts.length + 2 * j]? =
          some (specMiterPair sqrt (thickness * (1 / 2)) (colorToBytes color)
            (ps.getD (j - 1) Vec2.zero) (ps.getD j Vec2.zero)
            (ps.getD (j + 1) Vec2.zero)).1 ∧
        (d.polyline sqrt color thickness ps).verts[d.verts.length +
            2 * j + 1]? =
          some (specMiterPair sqrt (thickness * (1 / 2)) (colorToBytes color)
            (ps.getD (j - 1) Vec2.zero) (ps.getD j Vec2.zero)
            (ps.getD (j + 1) Vec2.zero)).2 := by
  match ps, h3 with
  | [], h => exact absurd h (by simp)
  | [p0], h => exact absurd h (by simp)
  | [p0, p1], h => exact absurd h (by simp)
  | p0 :: p1 :: p2 :: r, _ =>
      have hlast := polylineVertsAux_last sqrt (thickness * (1 / 2))
        (colorToBytes color) (p2 :: r) p0 p1
      simp only [List.length_cons] at hlast
      refine ⟨⟨?_, ?_⟩, ⟨?_, ?_⟩, ?_⟩
      · simp only [DrawData.polyline]
        rw [List.getElem?_append_right (le_refl d.verts.length),
          Nat.sub_self]
        rfl
      · simp only [DrawData.polyline]
        rw [List.getElem?_append_right (Nat.le_add_right _ _),
          Nat.add_sub_cancel_left]
        rfl
      · simp only [DrawData.polyline, List.length_cons]
        rw [show r.length + 1 + 1 + 1 - 1 = r.length + 1 + 1 from by omega,
          show r.length + 1 + 1 + 1 - 2 = r.length + 1 from by omega,
          show 2 * (r.length + 1 + 1) = 2 * (r.length + 1) + 1 + 1 from by
            omega]
        rw [List.getElem?_append_right (Nat.le_add_right _ _),
          Nat.add_sub_cancel_left]
        simp only [List.getElem?_cons_succ]
        exact hlast.1
      · simp only [DrawData.polyline, List.length_cons]
        rw [show r.length + 1 + 1 + 1 - 1 = r.length + 1 + 1 from by omega,
          show r.length + 1 + 1 + 1 - 2 = r.length + 1 from by omega,
          show d.verts.length + 2 * (r.length + 1 + 1) + 1 =
            d.verts.length + (2 * (r.length + 1) + 1 + 1 + 1) from by omega]
        rw [List.getElem?_append_right (Nat.le_add_right _ _),
          Nat.add_sub_cancel_left]
        simp only [List.getElem?_cons_succ]
        exact hlast.2
      · intro j hj1 hj2
        simp only [List.length_cons] at hj2
        obtain ⟨jj, rfl⟩ : ∃ jj, j = jj + 1 := ⟨j - 1, by omega⟩
        have hjj : jj < (p2 :: r).length := by
          simp only [List.length_cons]
          omega
        have hint := polylineVertsAux_interior sqrt (thickness * (1 / 2))
          (colorToBytes color) (p2 :: r) p0 p1 jj hjj
        constructor
        · simp only [DrawData.polyline]
          rw [show d.verts.length + 2 * (jj + 1) =
              d.verts.length + (2 * jj + 1 + 1) from by omega]
          rw [List.getElem?_append_right (Nat.le_add_right _ _),
            Nat.add_sub_cancel_left]
          simp only [List.getElem?_cons_succ]
          rw [show jj + 1 - 1 = jj from by omega,
            show jj + 1 + 1 = jj + 2 from by omega]
          exact hint.1
        · simp only [DrawData.polyline]
          rw [show d.verts.length + 2 * (jj + 1) + 1 =
              d.verts.length + (2 * jj + 1 + 1 + 1) from by omega]
          rw [List.getElem?_append_right (Nat.le_add_right _ _),
            Nat.add_sub_cancel_left]
          simp only [List.getElem?_cons_succ]
          rw [show jj + 1 - 1 = jj from by omega,
            show jj + 1 + 1 = jj + 2 from by omega]
          exact hint.2

/-- Points used by the C4 witness. -/
def psW : List (Vec2 ℚ) := [⟨0, 0⟩, ⟨1, 0⟩, ⟨2, 1⟩]

/-- Witness for C4 at a concrete input. -/
theorem polyline_miter_placement_witness :
    3 ≤ psW.length ∧
      (((dEmpty.polyline sqrtQ 255 1 psW).verts[dEmpty.verts.length]? =
          some ⟨(psW.getD 0 Vec2.zero).add
              (specEndOffset sqrtQ (1 * (1 / 2)) (psW.getD 0 Vec2.zero)
                (psW.getD 1 Vec2.zero)),
            OPAQUE_UV ℚ, colorToBytes 255⟩ ∧
        (dEmpty.polyline sqrtQ 255 1 psW).verts[dEmpty.verts.length + 1]? =
          some ⟨(psW.getD 0 Vec2.zero).sub
              (specEndOffset sqrtQ (1 * (1 / 2)) (psW.getD 0 Vec2.zero)
                (psW.getD 1 Vec2.zero)),
            OPAQUE_UV ℚ, colorToBytes 255⟩) ∧
      ((dEmpty.polyline sqrtQ 255 1 psW).verts[dEmpty.verts.length +
            2 * (psW.length - 1)]? =
          some ⟨(psW.getD (psW.length - 1) Vec2.zero).sub
              (specEndOffset sqrtQ (1 * (1 / 2))
                (psW.getD (psW.length - 1) Vec2.zero)
                (psW.getD (psW.length - 2) Vec2.zero)),
            OPAQUE_UV ℚ, colorToBytes 255⟩ ∧
        (dEmpty.polyline sqrtQ 255 1 psW).verts[dEmpty.verts.length +
            2 * (psW.length - 1) + 1]? =
          some ⟨(psW.getD (psW.length - 1) Vec2.zero).add
              (specEndOffset sqrtQ (1 * (1 / 2))
                (psW.getD (psW.length - 1) Vec2.zero)
                (psW.getD (psW.length - 2) Vec2.zero)),
            OPAQUE_UV ℚ, colorToBytes 255⟩) ∧
      ∀ j, 1 ≤ j → j ≤ psW.length - 2 →
        (dEmpty.polyline sqrtQ 255 1 psW).verts[dEmpty.verts.length +
              2 * j]? =
            some (specMiterPair sqrtQ (1 * (1 / 2)) (colorToBytes 255)
              (psW.getD (j - 1) Vec2.zero) (psW.getD j Vec2.zero)
              (psW.getD (j + 1) Vec2.zero)).1 ∧
          (dEmpty.polyline sqrtQ 255 1 psW).verts[dEmpty.verts.length +
              2 * j + 1]? =
            some (specMiterPair sqrtQ (1 * (1 / 2)) (colorToBytes 255)
              (psW.getD (j - 1) Vec2.zero) (psW.getD j Vec2.zero)
              (psW.getD (j + 1) Vec2.zero)).2) :=
  ⟨by decide, polyline_miter_placement sqrtQ dEmpty 255 1 psW (by decide)⟩

/-! Index bounds over whole calls. -/

/-- Every index value in the trace of one call from a batch of k vertices
is below k plus the total number of vertices the call appends. -/
theorem eventIdxs_bound (sqrt : α → α) (k : Nat) (c : Call α)
    (h : callOk k c) :
    ∀ i ∈ eventIdxs (callEvents sqrt k c),
      i < k + (eventVerts (callEvents sqrt k c)).length := by
  cases c with
  | extend vs idxs =>
      obtain ⟨hc, hk⟩ := h
      intro i hi
      simp only [callEvents, extendEvents, eventIdxs_append,
        eventVerts_append, eventIdxs_map_vert, eventVerts_map_vert,
        eventIdxs_map_idx_fn, eventVerts_map_idx_fn, List.append_nil,
        List.nil_append] at hi ⊢
      rcases List.mem_map.1 hi with ⟨j, hj, rfl⟩
      have hjv := hc j hj
      have hkm : k % U32 = k := Nat.mod_eq_of_lt (by omega)
      rw [hkm, Nat.mod_eq_of_lt (by omega)]
      omega
  | tri color a b c =>
      simp only [callOk] at h
      intro i hi
      simp only [callEvents, triEvents, eventIdxs_vert_cons,
        eventIdxs_idx_cons, eventIdxs_nil, eventVerts_vert_cons,
        eventVerts_idx_cons, eventVerts_nil, List.mem_cons,
        List.not_mem_nil, or_false, List.length_cons,
        List.length_nil] at hi ⊢
      have hkm : k % U32 = k := Nat.mod_eq_of_lt (by omega)
      rw [hkm] at hi
      rcases hi with rfl | rfl | rfl
      · omega
      · rw [Nat.mod_eq_of_lt (by omega)]; omega
      · rw [Nat.mod_eq_of_lt (by omega)]; omega
  | tri_multicolor a b c =>
      simp only [callOk] at h
      intro i hi
      simp only [callEvents, triMulticolorEvents, eventIdxs_vert_cons,
        eventIdxs_idx_cons, eventIdxs_nil, eventVerts_vert_cons,
        eventVerts_idx_cons, eventVerts_nil, List.mem_cons,
        List.not_mem_nil, or_false, List.length_cons,
        List.length_nil] at hi ⊢
      have hkm : k % U32 = k := Nat.mod_eq_of_lt (by omega)
      rw [hkm] at hi
      rcases hi with rfl | rfl | rfl
      · omega
      · rw [Nat.mod_eq_of_lt (by omega)]; omega
      · rw [Nat.mod_eq_of_lt (by omega)]; omega
  | rect color a b =>
      simp only [callOk] at h
      intro i hi
      simp only [callEvents, rectEvents, eventIdxs_append, eventVerts_append,
        eventIdxs_vert_cons, eventIdxs_nil, eventVerts_vert_cons,
        eventVerts_nil, eventIdxs_quadIdxEvents, eventVerts_quadIdxEvents,
        List.nil_append, List.append_nil, List.length_cons,
        List.length_nil] at hi ⊢
      have hb := mem_quadIndicies (by omega) hi
      omega
  | rect_uv color auv buv =>
      simp only [callOk] at h
      intro i hi
      simp only [callEvents, rectUvEvents, eventIdxs_append,
        eventVerts_append, eventIdxs_vert_cons, eventIdxs_nil,
        eventVerts_vert_cons, eventVerts_nil, eventIdxs_quadIdxEvents,
        eventVerts_quadIdxEvents, List.nil_append, List.append_nil,
        List.length_cons, List.length_nil] at hi ⊢
      have hb := mem_quadIndicies (by omega) hi
      omega
  | polyline color thickness points =>
      cases points with
      | nil => intro i hi; simp [callEvents, polylineEvents] at hi
      | cons p0 ps =>
          cases ps with
          | nil => intro i hi; simp [callEvents, polylineEvents] at hi
          | cons p1 rest =>
              simp only [callOk, List.length_cons] at h
              intro i hi
              simp only [callEvents, polylineEvents, eventIdxs_vert_cons,
                eventVerts_vert_cons, eventIdxs_append, eventVerts_append,
                eventIdxs_quadIdxEvents, eventVerts_quadIdxEvents,
                eventIdxs_polylineEventsAux, eventVerts_polylineEventsAux,
                List.nil_append, List.mem_append, List.length_cons,
                polylineVertsAux_length] at hi ⊢
              rcases hi with hi | hi
              · have hb := mem_quadIndicies (by omega) hi
                omega
              · have hb := mem_polylineIdxsAux rest.length (k + 2)
                  (by omega) hi
                omega
  | rect_polyline color thickness points =>
      cases points with
      | nil => intro i hi; simp [callEvents, rectPolylineEvents] at hi
      | cons p0 ps =>
          cases ps with
          | nil => intro i hi; simp [callEvents, rectPolylineEvents] at hi
          | cons p1 rest =>
              simp only [callOk, List.length_cons] at h
              intro i hi
              simp only [callEvents, rectPolylineEvents, eventIdxs_vert_cons,
                eventVerts_vert_cons, eventIdxs_append, eventVerts_append,
                eventIdxs_quadIdxEvents, eventVerts_quadIdxEvents,
                eventIdxs_rectPolylineEventsAux,
                eventVerts_rectPolylineEventsAux, List.nil_append,
                List.mem_append, List.length_cons,
                rectPolylineVertsAux_length] at hi ⊢
              rcases hi with hi | hi
              · have hb := mem_quadIndicies (by omega) hi
                omega
              · have hb := mem_rectPolylineIdxsAux rest.length (k + 4)
                  (by omega) hi
                omega

/-- Side condition for the triple-grouping of indices: extend's appended
index count is caller controlled; every other operation appends a multiple
of 3 on its own. -/
def extendMult3 : Call α → Prop
  | .extend _ idxs => idxs.length % 3 = 0
  | .tri _ _ _ _ => True
  | .tri_multicolor _ _ _ => True
  | .rect _ _ _ => True
  | .rect_uv _ _ _ => True
  | .polyline _ _ _ => True
  | .rect_polyline _ _ _ => True

/-- The number of indices one call appends is a multiple of 3, given
extend's side condition. -/
theorem eventIdxs_length_mult3 (sqrt : α → α) (k : Nat) (c : Call α)
    (hm : extendMult3 c) :
    (eventIdxs (callEvents sqrt k c)).length % 3 = 0 := by
  cases c with
  | extend vs idxs =>
      simp only [callEvents, extendEvents, eventIdxs_append,
        eventIdxs_map_vert, eventIdxs_map_idx_fn, List.nil_append,
        List.length_map]
      exact hm
  | tri color a b c => simp [callEvents, triEvents, eventIdxs]
  | tri_multicolor a b c => simp [callEvents, triMulticolorEvents, eventIdxs]
  | rect color a b => simp [callEvents, rectEvents, eventIdxs, quadIdxEvents,
      quadIndicies]
  | rect_uv color auv buv => simp [callEvents, rectUvEvents, eventIdxs,
      quadIdxEvents, quadIndicies]
  | polyline color thickness points =>
      cases points with
      | nil => simp [callEvents, polylineEvents, eventIdxs]
      | cons p0 ps =>
          cases ps with
          | nil => simp [callEvents, polylineEvents, eventIdxs]
          | cons p1 rest =>
              simp only [callEvents, polylineEvents, eventIdxs_vert_cons,
                eventIdxs_append, eventIdxs_quadIdxEvents,
                eventIdxs_polylineEventsAux, List.length_append,
                quadIndicies_length, polylineIdxsAux_length]
              omega
  | rect_polyline color thickness points =>
      cases points with
      | nil => simp [callEvents, rectPolylineEvents, eventIdxs]
      | cons p0 ps =>
          cases ps with
          | nil => simp [callEvents, rectPolylineEvents, eventIdxs]
          | cons p1 rest =>
              simp only [callEvents, rectPolylineEvents, eventIdxs_vert_cons,
                eventIdxs_append, eventIdxs_quadIdxEvents,
                eventIdxs_rectPolylineEventsAux, List.length_append,
                quadIndicies_length, rectPolylineIdxsAux_length]
              omega

/-- C1 counterexample: after polyline on two points pushes the first
point's two vertices, it pushes the quad indices 0,1,2,1,2,3 although only
2 vertices exist at that moment, so the indices 2 and 3 are dangling when
appended; the at-append-time invariant check over the call's trace is
false. -/
theorem polyline_intermediate_dangling_cex :
    eventsOkB 0 (callEvents sqrtQ 0
      (Call.polyline 4294967295 1 [⟨0, 0⟩, ⟨1, 0⟩])) = false := by decide

/-- C1 (amended): for every public operation, every index value appended
during the call is strictly less than the vertex count at the end of the
call (extend within its contract, all within the 32-bit regime); polyline
alone pushes indices that reference the next point's still missing pair,
so the bound holds at call end rather than at each append. -/
theorem call_indices_bounded_at_end (sqrt : α → α) (k : Nat) (c : Call α)
    (h : callOk k c) :
    ∀ i ∈ eventIdxs (callEvents sqrt k c),
      i < k + (eventVerts (callEvents sqrt k c)).length :=
  eventIdxs_bound sqrt k c h

/-- Witness for the amended C1 at a concrete input. -/
theorem call_indices_bounded_at_end_witness :
    callOk 0 (Call.rect 255 ⟨0, 0⟩ ⟨1, 1⟩ : Call ℚ) ∧
      ∀ i ∈ eventIdxs (callEvents sqrtQ 0 (Call.rect 255 ⟨0, 0⟩ ⟨1, 1⟩)),
        i < 0 + (eventVerts (callEvents sqrtQ 0
          (Call.rect 255 ⟨0, 0⟩ ⟨1, 1⟩))).length :=
  ⟨by unfold callOk; decide,
   call_indices_bounded_at_end sqrtQ 0 _ (by unfold callOk; decide)⟩

/-- C10 counterexample: extend of one vertex with the single in-bounds
index 0 satisfies the batch invariant, the extend contract and the
multiple-of-3 precondition on an empty batch, yet leaves the stored index
count at 1, which is not a multiple of 3. -/
theorem extend_mult3_cex :
    goodIndices dEmpty ∧ (∀ i ∈ [0], i < ([v00] : List (Vert ℚ)).length) ∧
      dEmpty.indicies.length % 3 = 0 ∧
      ¬ (runCall sqrtQ dEmpty (Call.extend [v00] [0])).indicies.length % 3
        = 0 := by
  refine ⟨?_, ?_, ?_, ?_⟩
  · intro i hi
    exact absurd hi (by simp [dEmpty])
  · decide
  · decide
  · decide

/-- C10 (amended): from a batch whose stored indices all reference
existing vertex slots, one complete call of any public operation (extend
within its contract, all within the 32-bit regime) again leaves every
stored index below the new vertex count; the stored index count remains a
multiple of 3 provided extend's supplied index list length is itself a
multiple of 3 — each geometric primitive appends a multiple of 3 on its
own. -/
theorem call_preserves_invariants (sqrt : α → α) (d : DrawData α)
    (c : Call α) (hinv : goodIndices d) (hok : callOk d.verts.length c) :
    goodIndices (runCall sqrt d c) ∧
      (extendMult3 c → d.indicies.length % 3 = 0 →
        (runCall sqrt d c).indicies.length % 3 = 0) := by
  have hv : (runCall sqrt d c).verts =
      d.verts ++ eventVerts (callEvents sqrt d.verts.length c) := by
    rw [← replay_callEvents, replay_spec]
  have hix : (runCall sqrt d c).indicies =
      d.indicies ++ eventIdxs (callEvents sqrt d.verts.length c) := by
    rw [← replay_callEvents, replay_spec]
  constructor
  · intro i hi
    rw [hix] at hi
    rw [hv, List.length_append]
    simp only [List.mem_append] at hi
    rcases hi with hi | hi
    · have := hinv i hi
      omega
    · have := eventIdxs_bound sqrt d.verts.length c hok i hi
      omega
  · intro hm h3
    rw [hix, List.length_append]
    have := eventIdxs_length_mult3 sqrt d.verts.length c hm
    omega

/-- Witness for the amended C10 at a concrete input. -/
theorem call_preserves_invariants_witness :
    goodIndices dEmpty ∧
      callOk dEmpty.verts.length (Call.rect 255 ⟨0, 0⟩ ⟨1, 1⟩ : Call ℚ) ∧
      (goodIndices (runCall sqrtQ dEmpty (Call.rect 255 ⟨0, 0⟩ ⟨1, 1⟩)) ∧
        (extendMult3 (Call.rect 255 ⟨0, 0⟩ ⟨1, 1⟩ : Call ℚ) →
          dEmpty.indicies.length % 3 = 0 →
          (runCall sqrtQ dEmpty
            (Call.rect 255 ⟨0, 0⟩ ⟨1, 1⟩)).indicies.length % 3 = 0)) := by
  have hg : goodIndices dEmpty := by
    intro i hi
    exact absurd hi (by simp [dEmpty])
  have hok : callOk dEmpty.verts.length
      (Call.rect 255 ⟨0, 0⟩ ⟨1, 1⟩ : Call ℚ) := by
    unfold callOk
    decide
  exact ⟨hg, hok, call_preserves_invariants sqrtQ dEmpty _ hg hok⟩

end ImmediateMode
